import Mathlib

/-!
Verification of the `claude-commit` orchestration layer
(`src/claude_commit/main.py`).

Strings are modelled as `List Char`.  Python's `str.strip` / `rstrip` /
`lower` / `split` / `join` / `in` / `split(sep, 1)` / `startswith` are
translated below; the whitespace predicate covers the ASCII whitespace
characters Python's `str.strip()` removes (the rarely seen non-ASCII
Unicode space separators are omitted, which no statement here depends on).
-/

namespace ClaudeCommit

/-- ASCII whitespace as stripped by Python's `str.strip()`. -/
def isPySpace (c : Char) : Bool :=
  c == ' ' || c == '\t' || c == '\n' || c == '\x0b' || c == '\x0c' ||
  c == '\r' || c == '\x1c' || c == '\x1d' || c == '\x1e' || c == '\x1f'

/-- Python `s.lstrip()`. -/
def pyLStrip (s : List Char) : List Char := s.dropWhile isPySpace

/-- Python `s.rstrip()` (as used on each kept line, `line.rstrip()`). -/
def pyRStrip (s : List Char) : List Char := (s.reverse.dropWhile isPySpace).reverse

/-- Python `s.strip()`. -/
def pyStrip (s : List Char) : List Char := pyRStrip (pyLStrip s)

/-- Python `s.lower()` (ASCII case folding, all that the code relies on). -/
def pyLower (s : List Char) : List Char := s.map Char.toLower

/-- Python `s.split(sep)` for a single-character separator
(`commit_message.split("\n")` in the source). -/
def pySplit (sep : Char) : List Char → List (List Char)
  | [] => [[]]
  | c :: t =>
    match pySplit sep t with
    | [] => [[c]]
    | l :: ls => if c = sep then [] :: l :: ls else (c :: l) :: ls

/-- Python `sep.join(xs)` for `sep = "\n"`. -/
def joinNL : List (List Char) → List Char
  | [] => []
  | [l] => l
  | l :: l' :: ls => l ++ '\n' :: joinNL (l' :: ls)

/-- The apostrophe character `'`. -/
def apos : Char := Char.ofNat 39

/-- The backquote character. -/
def bq : Char := Char.ofNat 96

/-- A markdown fence opener: three backquotes. -/
def fence : List Char := [bq, bq, bq]

/-- The literal delimiter `COMMIT_MESSAGE:` (main.py line 158). -/
def marker : List Char := "COMMIT_MESSAGE:".data

/-- The filler-phrase openers skipped by the fallback scan
(main.py line 170). -/
def fillers : List (List Char) :=
  ["let me".data, ['i', apos, 'l', 'l'], "i will".data,
   "now i".data, "first".data, "i can see".data]

/-- Python's substring test `needle in hay`. -/
def containsSub (needle : List Char) : List Char → Bool
  | [] => needle.isEmpty
  | c :: t => needle.isPrefixOf (c :: t) || containsSub needle t

/-- Python `hay.split(needle, 1)` restricted to the case where the split
succeeds: `some (before, after)` around the first occurrence of `needle`,
`none` when `needle` does not occur. -/
def splitFirst (needle : List Char) : List Char → Option (List Char × List Char)
  | [] => if needle.isEmpty then some ([], []) else none
  | c :: t =>
    if needle.isPrefixOf (c :: t) then some ([], (c :: t).drop needle.length)
    else
      match splitFirst needle t with
      | some (a, b) => some (c :: a, b)
      | none => none

/-- `any(text.lower().startswith(prefix) for prefix in [...])`
(main.py lines 168-171). -/
def isFiller (t : List Char) : Bool :=
  fillers.any (fun p => p.isPrefixOf (pyLower t))

/-- The fallback's acceptance test on one raw entry: after stripping it is
non-empty and does not start with a filler phrase (main.py lines 167-171). -/
def keepEntry (t : List Char) : Bool :=
  !(pyStrip t).isEmpty && !isFiller (pyStrip t)

/-- The fallback loop of main.py lines 166-173, already fed the reversed
log: returns the stripped form of the first entry that strips to something
non-empty and non-filler. -/
def fallbackScan : List (List Char) → Option (List Char)
  | [] => none
  | t :: rest =>
    let s := pyStrip t
    if !s.isEmpty && !isFiller s then some s else fallbackScan rest

/-- Candidate extraction, main.py lines 155-173: join the log with
newlines; if `COMMIT_MESSAGE:` occurs, take the stripped suffix after its
first occurrence; otherwise scan the entries in reverse arrival order. -/
def extractCandidate (log : List (List Char)) : Option (List Char) :=
  let blob := joinNL log
  if containsSub marker blob then
    match splitFirst marker blob with
    | some (_, suf) => some (pyStrip suf)
    | none => none
  else
    fallbackScan log.reverse

/-- One pass of the markdown-cleanup loop, main.py lines 181-186. -/
def cleanupLoop : Bool → List (List Char) → List (List Char)
  | _, [] => []
  | inCode, line :: rest =>
    if fence.isPrefixOf (pyStrip line) then cleanupLoop (!inCode) rest
    else if !inCode && !(pyStrip line).isEmpty then
      pyRStrip line :: cleanupLoop inCode rest
    else cleanupLoop inCode rest

/-- Markdown cleanup, main.py lines 177-188. -/
def cleanup (s : List Char) : List Char :=
  pyStrip (joinNL (cleanupLoop false (pySplit '\n' s)))

/-- The guard `if commit_message:` around cleanup (main.py line 176):
cleanup runs only on a non-`None`, non-empty message. -/
def applyCleanup : Option (List Char) → Option (List Char)
  | none => none
  | some m => if m.isEmpty then some m else some (cleanup m)

/-- Extraction of a message from a fresh accumulated text log (candidate
selection followed by guarded cleanup). -/
def extract (log : List (List Char)) : Option (List Char) :=
  applyCleanup (extractCandidate log)

/-- Events consumed by the `async for` loop of `generate_commit_message`:
a `TextBlock` inside an `AssistantMessage`, a `ResultMessage` with its
`is_error` flag, or anything else (ignored). -/
inductive AgentEvent where
  | text (s : List Char)
  | result (isError : Bool)
  | other
deriving DecidableEq

/-- The update applied to `commit_message` on a non-error `ResultMessage`
(main.py lines 153-188): the candidate replaces the previous value only
when one is found, then the cleanup guard runs on whatever is current. -/
def resultStep (old : Option (List Char)) (log : List (List Char)) :
    Option (List Char) :=
  applyCleanup
    (match extractCandidate log with
     | some c => some c
     | none => old)

/-- The event loop of `generate_commit_message` (main.py lines 134-190):
each `TextBlock` text is stripped and appended to `all_text`; each
non-error `ResultMessage` re-derives `commit_message` from the log so far. -/
def runLoop : List AgentEvent → List (List Char) → Option (List Char) →
    Option (List Char)
  | [], _, acc => acc
  | AgentEvent.text s :: rest, log, acc => runLoop rest (log ++ [pyStrip s]) acc
  | AgentEvent.result e :: rest, log, acc =>
      runLoop rest log (if e then acc else resultStep acc log)
  | AgentEvent.other :: rest, log, acc => runLoop rest log acc

/-- How the agent session ends: one of the three caught exception classes
(main.py lines 192-207), or the event stream runs to completion. -/
inductive SessionEnd where
  | cliNotFound
  | processError
  | unexpectedError
  | finished (events : List AgentEvent)

/-- `generate_commit_message`: every caught exception yields `None`;
otherwise the loop's final `commit_message` is returned. -/
def generateCommitMessage : SessionEnd → Option (List Char)
  | SessionEnd.cliNotFound => none
  | SessionEnd.processError => none
  | SessionEnd.unexpectedError => none
  | SessionEnd.finished evs => runLoop evs [] none

/-- `if not commit_message:` (main.py line 295): the message is acted on
only when it is present and non-empty. -/
def truthy : Option (List Char) → Bool
  | none => false
  | some s => !s.isEmpty

/-- The dispatch-relevant CLI flags (main.py lines 262-277). -/
structure Args where
  commit : Bool
  copy : Bool
  preview : Bool

/-- `platform.system()` families distinguished by the clipboard branch
(main.py lines 316-324). -/
inductive OSKind where
  | darwin
  | linuxOS
  | otherOS

/-- The external inputs dispatch consults: the platform, whether the
clipboard write succeeds, the confirmation line typed by the operator, and
whether `git commit` exits successfully. -/
structure Env where
  os : OSKind
  clipboardOk : Bool
  confirmInput : List Char
  gitCommitOk : Bool

/-- Observable outcome of one `main()` run: which side effects happened
and the process exit code (`0` for a normal return). -/
structure Effects where
  printedMessage : Bool
  previewNote : Bool
  copyAttempted : Bool
  clipboardCopied : Bool
  commitPrompted : Bool
  commitInvoked : Bool
  suggestion : Option (List Char)
  exitCode : Nat
deriving DecidableEq

def noEffects : Effects :=
  { printedMessage := false
    previewNote := false
    copyAttempted := false
    clipboardCopied := false
    commitPrompted := false
    commitInvoked := false
    suggestion := none
    exitCode := 0 }

/-- Whether the clipboard actually receives the message on the copy path
(main.py lines 316-326): only on the two supported platforms and only when
the external copy command succeeds; failures are non-fatal. -/
def clipboardWrites (a : Args) (env : Env) : Bool :=
  a.copy &&
    (match env.os with
     | OSKind.darwin => env.clipboardOk
     | OSKind.linuxOS => env.clipboardOk
     | OSKind.otherOS => false)

/-- `commit_message.replace("'", "'\\''")` (main.py line 360): each
apostrophe becomes apostrophe, backslash, apostrophe, apostrophe. -/
def escapeSQ : List Char → List Char
  | [] => []
  | c :: t =>
    if c = apos then apos :: '\\' :: apos :: apos :: escapeSQ t
    else c :: escapeSQ t

/-- The suggested command line printed by main.py line 361. -/
def suggestedLine (msg : List Char) : List Char :=
  "   git commit -m ".data ++ apos :: (escapeSQ msg ++ [apos])

/-- How `main()` starts: either `asyncio.run` is interrupted
(`KeyboardInterrupt`, main.py lines 291-293) or `generate_commit_message`
returns a value. -/
inductive Gen where
  | interrupted
  | completed (msg : Option (List Char))

/-- The observable behaviour of `main()` after argument parsing
(main.py lines 282-362). -/
def mainRun (g : Gen) (a : Args) (env : Env) : Effects :=
  match g with
  | Gen.interrupted => { noEffects with exitCode := 130 }
  | Gen.completed m =>
    if !truthy m then { noEffects with exitCode := 1 }
    else
      let msg := m.getD []
      if a.preview then
        { noEffects with
          printedMessage := true
          previewNote := true }
      else if a.commit then
        if pyLower env.confirmInput = ['y'] then
          { noEffects with
            printedMessage := true
            copyAttempted := a.copy
            clipboardCopied := clipboardWrites a env
            commitPrompted := true
            commitInvoked := true
            exitCode := if env.gitCommitOk then 0 else 1 }
        else
          { noEffects with
            printedMessage := true
            copyAttempted := a.copy
            clipboardCopied := clipboardWrites a env
            commitPrompted := true }
      else
        { noEffects with
          printedMessage := true
          copyAttempted := a.copy
          clipboardCopied := clipboardWrites a env
          suggestion := some (suggestedLine msg) }

/-- Modelled from the spec: the markdown-cleanup wording of §4.3 step 5 —
split into lines, toggle an inside-fenced-block flag on each line whose
trimmed form starts with a triple-backtick marker and drop that line, drop
every line while inside a fenced block, drop blank lines, right-trim the
survivors, rejoin with newlines, trim the whole result.  Stated as a left
fold so that its agreement with `cleanup` (the source translation) is a
genuine refinement theorem. -/
def cleanupSpecStep (st : Bool × List (List Char)) (line : List Char) :
    Bool × List (List Char) :=
  if fence.isPrefixOf (pyStrip line) then (!st.1, st.2)
  else if st.1 then st
  else if (pyStrip line).isEmpty then st
  else (st.1, st.2 ++ [pyRStrip line])

/-- Modelled from the spec: see `cleanupSpecStep`. -/
def cleanupSpec (s : List Char) : List Char :=
  pyStrip (joinNL ((pySplit '\n' s).foldl cleanupSpecStep (false, [])).2)

/-- The invariant every acted-on message satisfies (claim C10): non-empty,
globally trimmed, and every line is non-blank, free of a leading fence
marker, and free of trailing whitespace. -/
def cleanInvariant (s : List Char) : Prop :=
  s ≠ [] ∧ pyStrip s = s ∧
    ∀ l ∈ pySplit '\n' s,
      pyStrip l ≠ [] ∧ fence.isPrefixOf (pyStrip l) = false ∧ pyRStrip l = l

/-! ### Whitespace lemmas -/

theorem dropWhile_idem (p : Char → Bool) (l : List Char) :
    List.dropWhile p (List.dropWhile p l) = List.dropWhile p l := by
  induction l with
  | nil => rfl
  | cons c t ih =>
    by_cases h : p c
    · simpa [List.dropWhile_cons, h] using ih
    · simp [List.dropWhile_cons, h]

theorem pyLStrip_idem (s : List Char) : pyLStrip (pyLStrip s) = pyLStrip s :=
  dropWhile_idem isPySpace s

theorem pyRStrip_idem (s : List Char) : pyRStrip (pyRStrip s) = pyRStrip s := by
  simp [pyRStrip, dropWhile_idem]

theorem pyRStrip_eq_nil_iff (t : List Char) :
    pyRStrip t = [] ↔ List.dropWhile isPySpace t.reverse = [] := by
  unfold pyRStrip
  constructor
  · intro h
    have h' := congrArg List.reverse h
    simpa using h'
  · intro h
    rw [h]
    rfl

theorem pyLStrip_cons (c : Char) (t : List Char) :
    pyLStrip (c :: t) = if isPySpace c then pyLStrip t else c :: t := by
  by_cases hc : isPySpace c
  · simp [pyLStrip, List.dropWhile_cons, hc]
  · simp [pyLStrip, List.dropWhile_cons, hc]

theorem pyRStrip_cons (c : Char) (t : List Char) :
    pyRStrip (c :: t) =
      if pyRStrip t = [] then (if isPySpace c then [] else [c])
      else c :: pyRStrip t := by
  conv_lhs => unfold pyRStrip
  rw [List.reverse_cons, List.dropWhile_append]
  by_cases h : List.dropWhile isPySpace t.reverse = []
  · have hE : (List.dropWhile isPySpace t.reverse).isEmpty = true := by simp [h]
    rw [if_pos hE, if_pos ((pyRStrip_eq_nil_iff t).mpr h)]
    by_cases hc : isPySpace c
    · rw [if_pos hc]
      simp [List.dropWhile_cons, hc]
    · rw [if_neg hc]
      simp [List.dropWhile_cons, hc]
  · have hE : ¬ (List.dropWhile isPySpace t.reverse).isEmpty = true := by simp [h]
    rw [if_neg hE, if_neg (fun hh => h ((pyRStrip_eq_nil_iff t).mp hh))]
    simp [pyRStrip]

theorem pyLStrip_append (a b : List Char) :
    pyLStrip (a ++ b) =
      if pyLStrip a = [] then pyLStrip b else pyLStrip a ++ b := by
  conv_lhs => unfold pyLStrip
  rw [List.dropWhile_append]
  by_cases h : List.dropWhile isPySpace a = []
  · have hE : (List.dropWhile isPySpace a).isEmpty = true := by simp [h]
    have h' : pyLStrip a = [] := h
    rw [if_pos hE, if_pos h']
    rfl
  · have hE : ¬ (List.dropWhile isPySpace a).isEmpty = true := by simp [h]
    have h' : ¬ pyLStrip a = [] := h
    rw [if_neg hE, if_neg h']
    rfl

theorem pyRStrip_append (a b : List Char) :
    pyRStrip (a ++ b) =
      if pyRStrip b = [] then pyRStrip a else a ++ pyRStrip b := by
  conv_lhs => unfold pyRStrip
  rw [List.reverse_append, List.dropWhile_append]
  by_cases h : List.dropWhile isPySpace b.reverse = []
  · have hE : (List.dropWhile isPySpace b.reverse).isEmpty = true := by simp [h]
    rw [if_pos hE, if_pos ((pyRStrip_eq_nil_iff b).mpr h)]
    rfl
  · have hE : ¬ (List.dropWhile isPySpace b.reverse).isEmpty = true := by simp [h]
    rw [if_neg hE, if_neg (fun hh => h ((pyRStrip_eq_nil_iff b).mp hh))]
    simp [pyRStrip]

theorem pyLStrip_pyRStrip (s : List Char) :
    pyLStrip (pyRStrip s) = pyRStrip (pyLStrip s) := by
  induction s with
  | nil => rfl
  | cons c t ih =>
    rw [pyRStrip_cons]
    by_cases h : pyRStrip t = []
    · rw [if_pos h]
      by_cases hc : isPySpace c
      · rw [if_pos hc, pyLStrip_cons, if_pos hc, ← ih, h]
      · rw [if_neg hc]
        have h1 : pyLStrip [c] = [c] := by rw [pyLStrip_cons, if_neg hc]
        have h2 : pyLStrip (c :: t) = c :: t := by rw [pyLStrip_cons, if_neg hc]
        rw [h1, h2, pyRStrip_cons, if_pos h, if_neg hc]
    · rw [if_neg h, pyLStrip_cons]
      by_cases hc : isPySpace c
      · rw [if_pos hc, pyLStrip_cons, if_pos hc, ih]
      · rw [if_neg hc, pyLStrip_cons, if_neg hc, pyRStrip_cons, if_neg h]

theorem pyStrip_pyLStrip (s : List Char) : pyStrip (pyLStrip s) = pyStrip s := by
  simp [pyStrip, pyLStrip_idem]

theorem pyStrip_pyRStrip (s : List Char) : pyStrip (pyRStrip s) = pyStrip s := by
  simp [pyStrip, pyLStrip_pyRStrip, pyRStrip_idem]

theorem pyStrip_idem (s : List Char) : pyStrip (pyStrip s) = pyStrip s := by
  simp [pyStrip, pyLStrip_pyRStrip, pyLStrip_idem, pyRStrip_idem]

theorem pyRStrip_pyLStrip_of_fix (s : List Char) (h : pyRStrip s = s) :
    pyRStrip (pyLStrip s) = pyLStrip s := by
  rw [← pyLStrip_pyRStrip, h]

theorem pyLStrip_ne_nil_of_pyStrip (s : List Char) (h : pyStrip s ≠ []) :
    pyLStrip s ≠ [] := by
  intro h0
  apply h
  unfold pyStrip
  rw [h0]
  rfl

theorem ne_nil_of_pyStrip (s : List Char) (h : pyStrip s ≠ []) : s ≠ [] := by
  intro h0
  subst h0
  exact h rfl

theorem mem_pyLStrip (x : List Char) (c : Char) (h : c ∈ pyLStrip x) : c ∈ x :=
  List.dropWhile_subset isPySpace h

theorem mem_pyRStrip (x : List Char) (c : Char) (h : c ∈ pyRStrip x) : c ∈ x := by
  unfold pyRStrip at h
  rw [List.mem_reverse] at h
  exact List.mem_reverse.mp (List.dropWhile_subset isPySpace h)

/-! ### `pySplit` and `joinNL` lemmas -/

theorem pySplit_exists_cons (sep : Char) (t : List Char) :
    ∃ l0 ls0, pySplit sep t = l0 :: ls0 := by
  cases t with
  | nil => exact ⟨[], [], rfl⟩
  | cons c t' =>
    show ∃ l0 ls0,
      (match pySplit sep t' with
       | [] => [[c]]
       | l :: ls => if c = sep then [] :: l :: ls else (c :: l) :: ls) = l0 :: ls0
    cases hs : pySplit sep t' with
    | nil => exact ⟨[c], [], rfl⟩
    | cons l ls =>
      by_cases h : c = sep
      · exact ⟨[], l :: ls, by simp [h]⟩
      · exact ⟨c :: l, ls, by simp [h]⟩

theorem pySplit_ne_nil (sep : Char) (s : List Char) : pySplit sep s ≠ [] := by
  obtain ⟨l0, ls0, h⟩ := pySplit_exists_cons sep s
  rw [h]
  simp

theorem pySplit_cons_eq (sep c : Char) (t : List Char) (l : List Char)
    (ls : List (List Char)) (h : pySplit sep t = l :: ls) :
    pySplit sep (c :: t) =
      if c = sep then [] :: l :: ls else (c :: l) :: ls := by
  show (match pySplit sep t with
        | [] => [[c]]
        | l :: ls => if c = sep then [] :: l :: ls else (c :: l) :: ls) = _
  rw [h]

theorem not_sep_of_mem_pySplit (sep : Char) (s : List Char) :
    ∀ l ∈ pySplit sep s, sep ∉ l := by
  induction s with
  | nil =>
    intro l hl
    simp [pySplit] at hl
    subst hl
    simp
  | cons c t ih =>
    obtain ⟨l0, ls0, h0⟩ := pySplit_exists_cons sep t
    intro l hl
    rw [pySplit_cons_eq sep c t l0 ls0 h0] at hl
    by_cases h : c = sep
    · rw [if_pos h] at hl
      rcases List.mem_cons.mp hl with h1 | h1
      · subst h1
        simp
      · exact ih l (h0 ▸ h1)
    · rw [if_neg h] at hl
      rcases List.mem_cons.mp hl with h1 | h1
      · subst h1
        intro hmem
        rcases List.mem_cons.mp hmem with h2 | h2
        · exact h h2.symm
        · exact ih l0 (h0 ▸ List.mem_cons_self l0 ls0) h2
      · exact ih l (h0 ▸ List.mem_cons_of_mem l0 h1)

theorem pySplit_eq_single (sep : Char) (l : List Char) (h : sep ∉ l) :
    pySplit sep l = [l] := by
  induction l with
  | nil => rfl
  | cons c t ih =>
    have hc : ¬ c = sep := fun e => h (by simp [e])
    have ht : sep ∉ t := fun m => h (List.mem_cons_of_mem _ m)
    rw [pySplit_cons_eq sep c t t [] (ih ht), if_neg hc]

theorem pySplit_append_sep (sep : Char) (l t : List Char) (h : sep ∉ l) :
    pySplit sep (l ++ sep :: t) = l :: pySplit sep t := by
  induction l with
  | nil =>
    obtain ⟨l0, ls0, h0⟩ := pySplit_exists_cons sep t
    rw [List.nil_append, pySplit_cons_eq sep sep t l0 ls0 h0, if_pos rfl, ← h0]
  | cons c cs ih =>
    have hc : ¬ c = sep := fun e => h (by simp [e])
    have hcs : sep ∉ cs := fun m => h (List.mem_cons_of_mem _ m)
    obtain ⟨l0, ls0, h0⟩ := pySplit_exists_cons sep t
    have ih' := ih hcs
    rw [List.cons_append,
      pySplit_cons_eq sep c (cs ++ sep :: t) cs (pySplit sep t) ih', if_neg hc]

theorem joinNL_cons_cons (l l' : List Char) (rest : List (List Char)) :
    joinNL (l :: l' :: rest) = l ++ '\n' :: joinNL (l' :: rest) := rfl

theorem joinNL_cons_ne_nil (l : List Char) (rest : List (List Char))
    (h : l ≠ []) : joinNL (l :: rest) ≠ [] := by
  cases rest with
  | nil => exact h
  | cons l' r' =>
    rw [joinNL_cons_cons]
    simp

theorem pySplit_joinNL : ∀ ls : List (List Char), ls ≠ [] →
    (∀ l ∈ ls, '\n' ∉ l) → pySplit '\n' (joinNL ls) = ls := by
  intro ls
  induction ls with
  | nil => intro h; exact absurd rfl h
  | cons l rest ih =>
    intro _ h
    cases rest with
    | nil => exact pySplit_eq_single '\n' l (h l (by simp))
    | cons l' rest' =>
      rw [joinNL_cons_cons, pySplit_append_sep '\n' l _ (h l (by simp)),
        ih (by simp) (fun x hx => h x (List.mem_cons_of_mem _ hx))]

/-! ### Markdown-cleanup lemmas -/

theorem cleanupLoop_mem : ∀ (ls : List (List Char)) (b : Bool),
    ∀ l ∈ cleanupLoop b ls,
      pyRStrip l = l ∧ pyStrip l ≠ [] ∧
        fence.isPrefixOf (pyStrip l) = false ∧ ∃ x ∈ ls, l = pyRStrip x := by
  intro ls
  induction ls with
  | nil =>
    intro b l hl
    simp [cleanupLoop] at hl
  | cons line rest ih =>
    intro b l hl
    unfold cleanupLoop at hl
    by_cases hf : fence.isPrefixOf (pyStrip line) = true
    · rw [if_pos hf] at hl
      obtain ⟨h1, h2, h3, x, hx, he⟩ := ih (!b) l hl
      exact ⟨h1, h2, h3, x, List.mem_cons_of_mem _ hx, he⟩
    · rw [if_neg hf] at hl
      by_cases hk : (!b && !(pyStrip line).isEmpty) = true
      · rw [if_pos hk] at hl
        rcases List.mem_cons.mp hl with h1 | h1
        · subst h1
          have hne : pyStrip line ≠ [] := by
            intro he
            rw [Bool.and_eq_true] at hk
            rw [he] at hk
            simp at hk
          refine ⟨pyRStrip_idem line, ?_, ?_, line, List.mem_cons_self line rest, rfl⟩
          · rw [pyStrip_pyRStrip]
            exact hne
          · rw [pyStrip_pyRStrip]
            exact Bool.not_eq_true _ ▸ (Bool.eq_false_iff.mpr hf)
        · obtain ⟨h1', h2', h3', x, hx, he⟩ := ih b l h1
          exact ⟨h1', h2', h3', x, List.mem_cons_of_mem _ hx, he⟩
      · rw [if_neg hk] at hl
        obtain ⟨h1', h2', h3', x, hx, he⟩ := ih b l hl
        exact ⟨h1', h2', h3', x, List.mem_cons_of_mem _ hx, he⟩

theorem cleanupLoop_keep : ∀ ls : List (List Char),
    (∀ l ∈ ls, pyStrip l ≠ [] ∧ fence.isPrefixOf (pyStrip l) = false) →
    cleanupLoop false ls = ls.map pyRStrip := by
  intro ls
  induction ls with
  | nil => intro _; rfl
  | cons line rest ih =>
    intro h
    obtain ⟨hne, hf⟩ := h line (List.mem_cons_self _ _)
    unfold cleanupLoop
    rw [if_neg (by rw [hf]; exact Bool.false_ne_true)]
    have hk : (!false && !(pyStrip line).isEmpty) = true := by
      simp only [Bool.not_false, Bool.true_and, Bool.not_eq_true']
      exact List.isEmpty_eq_false.mpr hne
    rw [if_pos hk, ih (fun x hx => h x (List.mem_cons_of_mem _ hx))]
    rfl

theorem pyRStrip_joinNL : ∀ ls : List (List Char),
    (∀ l ∈ ls, pyRStrip l = l ∧ l ≠ []) →
    pyRStrip (joinNL ls) = joinNL ls := by
  intro ls
  induction ls with
  | nil => intro _; rfl
  | cons l rest ih =>
    intro h
    cases rest with
    | nil => exact (h l (by simp)).1
    | cons l' rest' =>
      rw [joinNL_cons_cons]
      have hJ : pyRStrip (joinNL (l' :: rest')) = joinNL (l' :: rest') :=
        ih (fun x hx => h x (List.mem_cons_of_mem _ hx))
      have hJne : joinNL (l' :: rest') ≠ [] :=
        joinNL_cons_ne_nil l' rest' (h l' (by simp)).2
      have hcons : pyRStrip ('\n' :: joinNL (l' :: rest')) =
          '\n' :: joinNL (l' :: rest') := by
        rw [pyRStrip_cons, hJ, if_neg hJne]
      rw [pyRStrip_append, hcons, if_neg (List.cons_ne_nil _ _)]

theorem pyStrip_joinNL (l0 : List Char) (rest : List (List Char))
    (h : ∀ l ∈ l0 :: rest, pyRStrip l = l ∧ pyStrip l ≠ []) :
    pyStrip (joinNL (l0 :: rest)) = joinNL (pyLStrip l0 :: rest) := by
  have h0 := h l0 (by simp)
  have hl0 : pyLStrip l0 ≠ [] := pyLStrip_ne_nil_of_pyStrip l0 h0.2
  have hL : pyLStrip (joinNL (l0 :: rest)) = joinNL (pyLStrip l0 :: rest) := by
    cases rest with
    | nil => rfl
    | cons l' rest' =>
      rw [joinNL_cons_cons, pyLStrip_append, if_neg hl0, joinNL_cons_cons]
  unfold pyStrip
  rw [hL]
  apply pyRStrip_joinNL
  intro x hx
  rcases List.mem_cons.mp hx with h1 | h1
  · subst h1
    exact ⟨pyRStrip_pyLStrip_of_fix l0 h0.1, hl0⟩
  · have hx' := h x (List.mem_cons_of_mem _ h1)
    exact ⟨hx'.1, ne_nil_of_pyStrip x hx'.2⟩

theorem cleanup_out_nil (s : List Char)
    (h : cleanupLoop false (pySplit '\n' s) = []) : cleanup s = [] := by
  unfold cleanup
  rw [h]
  rfl

theorem cleanup_out_cons (s : List Char) (l0 : List Char)
    (rest : List (List Char))
    (h : cleanupLoop false (pySplit '\n' s) = l0 :: rest) :
    cleanup s = joinNL (pyLStrip l0 :: rest) := by
  unfold cleanup
  rw [h]
  apply pyStrip_joinNL
  intro l hl
  have hp := cleanupLoop_mem (pySplit '\n' s) false l (h ▸ hl)
  exact ⟨hp.1, hp.2.1⟩

theorem cleanup_out_props (s : List Char) (l0 : List Char)
    (rest : List (List Char))
    (h : cleanupLoop false (pySplit '\n' s) = l0 :: rest) :
    ∀ l ∈ pyLStrip l0 :: rest,
      pyRStrip l = l ∧ pyStrip l ≠ [] ∧
        fence.isPrefixOf (pyStrip l) = false ∧ '\n' ∉ l := by
  have hmem : ∀ x ∈ l0 :: rest,
      pyRStrip x = x ∧ pyStrip x ≠ [] ∧
        fence.isPrefixOf (pyStrip x) = false ∧ '\n' ∉ x := by
    intro x hx
    have hx' := cleanupLoop_mem (pySplit '\n' s) false x (h ▸ hx)
    refine ⟨hx'.1, hx'.2.1, hx'.2.2.1, ?_⟩
    obtain ⟨y, hy, he⟩ := hx'.2.2.2
    intro hn
    exact not_sep_of_mem_pySplit '\n' s y hy (mem_pyRStrip y '\n' (he ▸ hn))
  intro l hl
  rcases List.mem_cons.mp hl with h1 | h1
  · subst h1
    have h0 := hmem l0 (by simp)
    refine ⟨pyRStrip_pyLStrip_of_fix l0 h0.1, ?_, ?_, ?_⟩
    · rw [pyStrip_pyLStrip]
      exact h0.2.1
    · rw [pyStrip_pyLStrip]
      exact h0.2.2.1
    · intro hn
      exact h0.2.2.2 (mem_pyLStrip l0 '\n' hn)
  · exact hmem l (List.mem_cons_of_mem _ h1)

theorem cleanup_nil : cleanup [] = [] := by decide

theorem cleanup_fixes (s : List Char) (l0 : List Char)
    (rest : List (List Char))
    (h : cleanupLoop false (pySplit '\n' s) = l0 :: rest) :
    cleanup (cleanup s) = cleanup s := by
  have hL := cleanup_out_props s l0 rest h
  rw [cleanup_out_cons s l0 rest h]
  unfold cleanup
  rw [pySplit_joinNL _ (by simp) (fun l hl => (hL l hl).2.2.2)]
  rw [cleanupLoop_keep _ (fun l hl => ⟨(hL l hl).2.1, (hL l hl).2.2.1⟩)]
  have hmap : (pyLStrip l0 :: rest).map pyRStrip = pyLStrip l0 :: rest := by
    rw [List.map_congr_left (fun x hx => (hL x hx).1)]
    simp
  rw [hmap,
    pyStrip_joinNL _ _ (fun l hl => ⟨(hL l hl).1, (hL l hl).2.1⟩),
    pyLStrip_idem]

theorem cleanup_cleanup (s : List Char) : cleanup (cleanup s) = cleanup s := by
  cases hout : cleanupLoop false (pySplit '\n' s) with
  | nil =>
    rw [cleanup_out_nil s hout, cleanup_nil]
  | cons l0 rest => exact cleanup_fixes s l0 rest hout

theorem cleanup_clean (s : List Char) (h : cleanup s ≠ []) :
    cleanInvariant (cleanup s) := by
  cases hout : cleanupLoop false (pySplit '\n' s) with
  | nil => exact absurd (cleanup_out_nil s hout) h
  | cons l0 rest =>
    have hL := cleanup_out_props s l0 rest hout
    rw [cleanup_out_cons s l0 rest hout]
    refine ⟨?_, ?_, ?_⟩
    · exact joinNL_cons_ne_nil _ _
        (ne_nil_of_pyStrip _ (hL (pyLStrip l0) (by simp)).2.1)
    · rw [pyStrip_joinNL _ _ (fun l hl => ⟨(hL l hl).1, (hL l hl).2.1⟩),
        pyLStrip_idem]
    · rw [pySplit_joinNL _ (by simp) (fun l hl => (hL l hl).2.2.2)]
      intro l hl
      exact ⟨(hL l hl).2.1, (hL l hl).2.2.1, (hL l hl).1⟩

/-! ### Marker search lemmas -/

theorem containsSub_cons (n : List Char) (c : Char) (t : List Char) :
    containsSub n (c :: t) = (n.isPrefixOf (c :: t) || containsSub n t) := rfl

theorem containsSub_of_mid : ∀ pre n suf : List Char, n ≠ [] →
    containsSub n (pre ++ n ++ suf) = true := by
  intro pre
  induction pre with
  | nil =>
    intro n suf hn
    cases n with
    | nil => exact absurd rfl hn
    | cons c t =>
      rw [List.nil_append, List.cons_append, containsSub_cons]
      have hp : (c :: t).isPrefixOf (c :: (t ++ suf)) = true := by
        rw [ List.isPrefixOf_iff_prefix]
        exact List.prefix_append (c :: t) suf
      rw [hp]
      simp
  | cons a pre' ih =>
    intro n suf hn
    show (n.isPrefixOf (a :: (pre' ++ n ++ suf)) ||
      containsSub n (pre' ++ n ++ suf)) = true
    rw [ih n suf hn]
    simp

theorem splitFirst_of_first : ∀ pre n suf : List Char, n ≠ [] →
    containsSub n (pre ++ n.dropLast) = false →
    splitFirst n (pre ++ n ++ suf) = some (pre, suf) := by
  intro pre
  induction pre with
  | nil =>
    intro n suf hn _
    cases n with
    | nil => exact absurd rfl hn
    | cons c t =>
      rw [List.nil_append]
      have hp : (c :: t).isPrefixOf (c :: (t ++ suf)) = true := by
        rw [ List.isPrefixOf_iff_prefix]
        exact List.prefix_append (c :: t) suf
      show splitFirst (c :: t) (c :: (t ++ suf)) = some ([], suf)
      unfold splitFirst
      rw [if_pos hp]
      rw [show c :: (t ++ suf) = (c :: t) ++ suf from rfl, List.drop_left]
  | cons a pre' ih =>
    intro n suf hn h
    rw [List.cons_append] at h
    rw [containsSub_cons] at h
    have h' := Bool.or_eq_false_iff.mp h
    have hsplit : n.dropLast ++ [n.getLast hn] = n :=
      List.dropLast_append_getLast hn
    have hnotpre : ¬ n.isPrefixOf (a :: (pre' ++ n ++ suf)) = true := by
      intro hp
      rw [ List.isPrefixOf_iff_prefix] at hp
      have hA : (pre' ++ n.dropLast) <+: (pre' ++ n ++ suf) := by
        refine ⟨[n.getLast hn] ++ suf, ?_⟩
        calc (pre' ++ n.dropLast) ++ ([n.getLast hn] ++ suf)
            = pre' ++ (n.dropLast ++ [n.getLast hn]) ++ suf := by
              simp [List.append_assoc]
          _ = pre' ++ n ++ suf := by rw [hsplit]
      have hA' : (a :: (pre' ++ n.dropLast)) <+: (a :: (pre' ++ n ++ suf)) := by
        obtain ⟨w, hw⟩ := hA
        exact ⟨w, by rw [List.cons_append, hw]⟩
      have hn1 : 1 ≤ n.length := List.length_pos.mpr hn
      have hlen : n.length ≤ (a :: (pre' ++ n.dropLast)).length := by
        simp only [List.length_cons, List.length_append, List.length_dropLast]
        omega
      have hpref : n <+: (a :: (pre' ++ n.dropLast)) :=
        List.prefix_of_prefix_length_le hp hA' hlen
      have hPT : n.isPrefixOf (a :: (pre' ++ n.dropLast)) = true := by
        rw [ List.isPrefixOf_iff_prefix]
        exact hpref
      rw [h'.1] at hPT
      exact Bool.false_ne_true hPT
    rw [List.cons_append]
    show splitFirst n (a :: (pre' ++ n ++ suf)) = some (a :: pre', suf)
    unfold splitFirst
    rw [if_neg hnotpre, ih n suf hn h'.2]

/-! ### Fallback-scan lemmas -/

theorem fallbackScan_eq_find : ∀ l : List (List Char),
    fallbackScan l = (l.find? keepEntry).map pyStrip := by
  intro l
  induction l with
  | nil => rfl
  | cons t rest ih =>
    simp only [fallbackScan, keepEntry, List.find?_cons]
    by_cases h : (!(pyStrip t).isEmpty && !isFiller (pyStrip t)) = true
    · rw [if_pos h, h]
      rfl
    · have hb : (!(pyStrip t).isEmpty && !isFiller (pyStrip t)) = false :=
        Bool.eq_false_iff.mpr h
      rw [if_neg h, hb]
      exact ih

/-! ### Cleanup-refinement lemmas -/

theorem cleanupLoop_cons (b : Bool) (line : List Char)
    (rest : List (List Char)) :
    cleanupLoop b (line :: rest) =
      if fence.isPrefixOf (pyStrip line) then cleanupLoop (!b) rest
      else if !b && !(pyStrip line).isEmpty then
        pyRStrip line :: cleanupLoop b rest
      else cleanupLoop b rest := rfl

theorem foldl_cleanupSpecStep : ∀ (ls : List (List Char)) (b : Bool)
    (acc : List (List Char)),
    (ls.foldl cleanupSpecStep (b, acc)).2 = acc ++ cleanupLoop b ls := by
  intro ls
  induction ls with
  | nil =>
    intro b acc
    simp [cleanupLoop]
  | cons line rest ih =>
    intro b acc
    rw [List.foldl_cons, cleanupLoop_cons]
    by_cases hf : fence.isPrefixOf (pyStrip line) = true
    · rw [show cleanupSpecStep (b, acc) line = (!b, acc) from by
        unfold cleanupSpecStep; rw [if_pos hf]]
      rw [if_pos hf]
      exact ih (!b) acc
    · rw [if_neg hf]
      cases b with
      | true =>
        rw [show cleanupSpecStep (true, acc) line = (true, acc) from by
          unfold cleanupSpecStep; rw [if_neg hf]; rfl]
        rw [if_neg (by simp)]
        exact ih true acc
      | false =>
        by_cases he : (pyStrip line).isEmpty = true
        · rw [show cleanupSpecStep (false, acc) line = (false, acc) from by
            unfold cleanupSpecStep
            rw [if_neg hf, if_neg (by simp), if_pos he]]
          rw [if_neg (by simp [he])]
          exact ih false acc
        · rw [show cleanupSpecStep (false, acc) line =
              (false, acc ++ [pyRStrip line]) from by
            unfold cleanupSpecStep
            rw [if_neg hf, if_neg (by simp), if_neg he]]
          rw [if_pos (by simp [Bool.not_eq_true' ] at he ⊢; exact he)]
          rw [ih false (acc ++ [pyRStrip line])]
          simp

theorem cleanup_eq_cleanupSpec (s : List Char) : cleanup s = cleanupSpec s := by
  unfold cleanup cleanupSpec
  rw [foldl_cleanupSpecStep, List.nil_append]

theorem cleanupLoop_inside_skip : ∀ B C : List (List Char),
    (∀ l ∈ B, fence.isPrefixOf (pyStrip l) = false) →
    cleanupLoop true (B ++ C) = cleanupLoop true C := by
  intro B
  induction B with
  | nil => intro C _; rfl
  | cons line rest ih =>
    intro C h
    have hf : ¬ fence.isPrefixOf (pyStrip line) = true := by
      rw [h line (List.mem_cons_self _ _)]
      exact Bool.false_ne_true
    rw [List.cons_append, cleanupLoop_cons, if_neg hf, if_neg (by simp)]
    exact ih C (fun x hx => h x (List.mem_cons_of_mem _ hx))

theorem cleanupLoop_fence_toggle (f : List Char) (X : List (List Char))
    (b : Bool) (hf : fence.isPrefixOf (pyStrip f) = true) :
    cleanupLoop b (f :: X) = cleanupLoop (!b) X := by
  rw [cleanupLoop_cons, if_pos hf]

/-! ### Shell-escaping lemmas -/

theorem escapeSQ_cons (c : Char) (t : List Char) :
    escapeSQ (c :: t) =
      if c = apos then apos :: '\\' :: apos :: apos :: escapeSQ t
      else c :: escapeSQ t := rfl

theorem escapeSQ_append : ∀ a b : List Char,
    escapeSQ (a ++ b) = escapeSQ a ++ escapeSQ b := by
  intro a
  induction a with
  | nil => intro b; rfl
  | cons c t ih =>
    intro b
    rw [List.cons_append, escapeSQ_cons, escapeSQ_cons]
    by_cases h : c = apos
    · rw [if_pos h, if_pos h, ih b]
      rfl
    · rw [if_neg h, if_neg h, ih b]
      rfl

/-! ### Event-loop soundness -/

theorem applyCleanup_sound (x : Option (List Char)) (s : List Char)
    (h : applyCleanup x = some s) (hne : s ≠ []) : cleanInvariant s := by
  cases x with
  | none => exact absurd h (by simp [applyCleanup])
  | some m =>
    simp only [applyCleanup] at h
    by_cases he : m.isEmpty = true
    · rw [if_pos he] at h
      have : m = s := Option.some.inj h
      subst this
      exact absurd (List.isEmpty_iff.mp he) hne
    · rw [if_neg he] at h
      have : cleanup m = s := Option.some.inj h
      subst this
      exact cleanup_clean m hne

theorem runLoop_sound : ∀ (evs : List AgentEvent) (log : List (List Char))
    (acc : Option (List Char)),
    (∀ s, acc = some s → s ≠ [] → cleanInvariant s) →
    ∀ s, runLoop evs log acc = some s → s ≠ [] → cleanInvariant s := by
  intro evs
  induction evs with
  | nil =>
    intro log acc hacc s hs hne
    exact hacc s hs hne
  | cons ev rest ih =>
    intro log acc hacc s hs hne
    cases ev with
    | text t => exact ih _ _ hacc s hs hne
    | other => exact ih _ _ hacc s hs hne
    | result e =>
      cases e with
      | true => exact ih _ _ hacc s hs hne
      | false =>
        refine ih _ _ ?_ s hs hne
        intro s' hs' hne'
        exact applyCleanup_sound _ s' hs' hne'

/-! ### Extraction characterizations -/

theorem extractCandidate_of_marker (log : List (List Char))
    (pre suf : List Char)
    (hjoin : joinNL log = pre ++ marker ++ suf)
    (hfirst : containsSub marker (pre ++ marker.dropLast) = false) :
    extractCandidate log = some (pyStrip suf) := by
  have hm : marker ≠ [] := by decide
  simp only [extractCandidate]
  rw [hjoin, containsSub_of_mid pre marker suf hm, if_pos rfl,
    splitFirst_of_first pre marker suf hm hfirst]

theorem extractCandidate_of_no_marker (log : List (List Char))
    (h : containsSub marker (joinNL log) = false) :
    extractCandidate log = (log.reverse.find? keepEntry).map pyStrip := by
  simp only [extractCandidate]
  rw [if_neg (by rw [h]; exact Bool.false_ne_true)]
  exact fallbackScan_eq_find log.reverse

theorem toLower_eq_y (c : Char) (h : Char.toLower c = 'y') :
    c = 'y' ∨ c = 'Y' := by
  unfold Char.toLower at h
  by_cases hb : c.toNat ≥ 65 ∧ c.toNat ≤ 90
  · rw [if_pos hb] at h
    right
    have hc : c = Char.ofNat c.toNat := (Char.ofNat_toNat c).symm
    obtain ⟨n, hn⟩ : ∃ n, c.toNat = n := ⟨c.toNat, rfl⟩
    obtain ⟨h1, h2⟩ := hb
    rw [hn] at h h1 h2
    rw [hc, hn]
    interval_cases n <;> revert h <;> decide
  · rw [if_neg hb] at h
    exact Or.inl h

theorem pyLower_eq_y_iff (input : List Char) :
    pyLower input = ['y'] ↔ input = ['y'] ∨ input = ['Y'] := by
  constructor
  · intro h
    cases input with
    | nil => exact absurd h (by decide)
    | cons c t =>
      cases t with
      | nil =>
        have hc : Char.toLower c = 'y' := by
          have h' : [Char.toLower c] = ['y'] := h
          exact List.cons.inj h' |>.1
        rcases toLower_eq_y c hc with h1 | h1
        · exact Or.inl (by rw [h1])
        · exact Or.inr (by rw [h1])
      | cons d t' =>
        exfalso
        have hlen := congrArg List.length h
        simp [pyLower] at hlen
  · rintro (rfl | rfl) <;> decide

/-! ### Claim theorems -/

/-- Claim C1: for every accumulated text log whose newline-joined blob
contains the literal marker `COMMIT_MESSAGE:`, extraction splits on the
FIRST occurrence of the marker (the decomposition hypotheses say the
occurrence after `pre` is the first one) and returns exactly the
whitespace-trimmed suffix after it as the candidate, regardless of any
additional occurrences of the marker inside `suf`. -/
theorem marker_extraction_splits_at_first_occurrence
    (log : List (List Char)) (pre suf : List Char)
    (hjoin : joinNL log = pre ++ marker ++ suf)
    (hfirst : containsSub marker (pre ++ marker.dropLast) = false) :
    extractCandidate log = some (pyStrip suf) :=
  extractCandidate_of_marker log pre suf hjoin hfirst

/-- Witness for C1: a log whose blob contains the marker twice; the
candidate is the trimmed suffix after the first occurrence, which still
contains the second occurrence. -/
theorem marker_extraction_splits_at_first_occurrence_witness :
    extractCandidate
        ["hi".data, "COMMIT_MESSAGE: fix: a COMMIT_MESSAGE: b".data] =
      some ("fix: a COMMIT_MESSAGE: b".data) := by
  have h := marker_extraction_splits_at_first_occurrence
    ["hi".data, "COMMIT_MESSAGE: fix: a COMMIT_MESSAGE: b".data]
    ("hi\n".data) (" fix: a COMMIT_MESSAGE: b".data) (by decide) (by decide)
  rw [h]
  decide

/-- Claim C2: for every accumulated text log whose joined blob does not
contain `COMMIT_MESSAGE:`, extraction scans the entries in reverse arrival
order and selects (in trimmed form) the first entry that, after trimming,
is non-empty and does not case-insensitively start with a filler phrase;
if no entry qualifies (or the log is empty), extraction returns absent. -/
theorem fallback_selects_last_nonfiller (log : List (List Char))
    (h : containsSub marker (joinNL log) = false) :
    extractCandidate log = (log.reverse.find? keepEntry).map pyStrip ∧
      (log.reverse.find? keepEntry = none → extract log = none) := by
  have hcand := extractCandidate_of_no_marker log h
  refine ⟨hcand, fun hnone => ?_⟩
  unfold extract
  rw [hcand, hnone]
  rfl

/-- Witness for C2: no marker; the latest entry is filler ("Now I ..."),
the one before it is selected. -/
theorem fallback_selects_last_nonfiller_witness :
    extractCandidate
        ["Let me check.".data, "feat: add x".data, "Now I refine.".data] =
      some ("feat: add x".data) := by
  have h := fallback_selects_last_nonfiller
    ["Let me check.".data, "feat: add x".data, "Now I refine.".data]
    (by decide)
  rw [h.1]
  decide

/-- Claim C3: markdown cleanup implements exactly the spec's line
algorithm (toggle an inside-fence flag on fence lines and drop them, drop
fenced and blank lines, right-trim survivors, rejoin, trim the result),
and in particular the content of a fenced block never survives the loop. -/
theorem cleanup_follows_spec_and_drops_fenced :
    (∀ s, cleanup s = cleanupSpec s) ∧
    ∀ (f g : List Char) (B C : List (List Char)),
      fence.isPrefixOf (pyStrip f) = true →
      fence.isPrefixOf (pyStrip g) = true →
      (∀ l ∈ B, fence.isPrefixOf (pyStrip l) = false) →
      cleanupLoop false (f :: (B ++ g :: C)) = cleanupLoop false C := by
  refine ⟨cleanup_eq_cleanupSpec, ?_⟩
  intro f g B C hf hg hB
  rw [cleanupLoop_fence_toggle f _ false hf, Bool.not_false,
    cleanupLoop_inside_skip B (g :: C) hB,
    cleanupLoop_fence_toggle g C true hg, Bool.not_true]

/-- Witness for C3: a fenced block between two fence lines is dropped
whole. -/
theorem cleanup_follows_spec_and_drops_fenced_witness :
    cleanupLoop false (fence :: (["code line".data] ++ fence :: ["ok".data])) =
      cleanupLoop false ["ok".data] :=
  cleanup_follows_spec_and_drops_fenced.2 fence fence ["code line".data]
    ["ok".data] (by decide) (by decide) (by decide)

/-- Claim C4: when `COMMIT_MESSAGE:` is followed by nothing, or only by
content that markdown cleanup removes entirely, the pipeline's
user-visible outcome is identical to true absence: the same failure path
with process exit code 1. -/
theorem empty_after_marker_fails_like_absence (log : List (List Char))
    (pre suf : List Char)
    (hjoin : joinNL log = pre ++ marker ++ suf)
    (hfirst : containsSub marker (pre ++ marker.dropLast) = false)
    (hclean : cleanup (pyStrip suf) = []) :
    extract log = some [] ∧
      ∀ (a : Args) (env : Env),
        mainRun (Gen.completed (extract log)) a env =
          mainRun (Gen.completed none) a env ∧
        (mainRun (Gen.completed (extract log)) a env).exitCode = 1 := by
  have hcand := extractCandidate_of_marker log pre suf hjoin hfirst
  have hex : extract log = some [] := by
    unfold extract
    rw [hcand]
    simp only [applyCleanup]
    by_cases he : (pyStrip suf).isEmpty = true
    · rw [if_pos he]
      exact congrArg some (List.isEmpty_iff.mp he)
    · rw [if_neg he, hclean]
  refine ⟨hex, fun a env => ?_⟩
  rw [hex]
  exact ⟨rfl, rfl⟩

/-- Witness for C4: the marker followed only by a fenced code block. -/
theorem empty_after_marker_fails_like_absence_witness :
    extract [marker ++ '\n' :: (fence ++ '\n' :: ("code".data ++ '\n' :: fence))] =
      some [] ∧
    (mainRun
        (Gen.completed
          (extract
            [marker ++ '\n' :: (fence ++ '\n' :: ("code".data ++ '\n' :: fence))]))
        ⟨false, false, false⟩
        ⟨OSKind.otherOS, false, [], false⟩).exitCode = 1 := by
  have h := empty_after_marker_fails_like_absence
    [marker ++ '\n' :: (fence ++ '\n' :: ("code".data ++ '\n' :: fence))]
    [] ('\n' :: (fence ++ '\n' :: ("code".data ++ '\n' :: fence)))
    rfl (by decide) (by decide)
  exact ⟨h.1, (h.2 ⟨false, false, false⟩ ⟨OSKind.otherOS, false, [], false⟩).2⟩

/-- Claim C5: the process exit code is 0 on success (including a declined
commit confirmation), 1 when no message is produced (all agent-session
failures yield no message, as does extraction failure) and when the git
commit operation fails, and 130 when the operator interrupts the agent
session. -/
theorem exit_code_policy :
    (generateCommitMessage SessionEnd.cliNotFound = none ∧
     generateCommitMessage SessionEnd.processError = none ∧
     generateCommitMessage SessionEnd.unexpectedError = none) ∧
    ∀ (g : Gen) (a : Args) (env : Env),
      (mainRun g a env).exitCode =
        match g with
        | Gen.interrupted => 130
        | Gen.completed m =>
          if truthy m = false then 1
          else if a.preview = false ∧ a.commit = true ∧
              pyLower env.confirmInput = ['y'] ∧ env.gitCommitOk = false then 1
          else 0 := by
  refine ⟨⟨rfl, rfl, rfl⟩, ?_⟩
  intro g a env
  cases g with
  | interrupted => rfl
  | completed m =>
    by_cases hm : truthy m = false
    · simp [mainRun, hm]
    · have hm' : truthy m = true := by
        cases htm : truthy m
        · exact absurd htm hm
        · rfl
      by_cases hp : a.preview = true
      · simp [mainRun, hm', hp, noEffects]
      · have hp' : a.preview = false := by
          cases hq : a.preview
          · rfl
          · exact absurd hq hp
        by_cases hcm : a.commit = true
        · by_cases hy : pyLower env.confirmInput = ['y']
          · cases hok : env.gitCommitOk
            · simp [mainRun, hm', hp', hcm, hy, hok]
            · simp [mainRun, hm', hp', hcm, hy, hok]
          · simp [mainRun, hm', hp', hcm, hy, noEffects]
        · have hcm' : a.commit = false := by
            cases hq : a.commit
            · rfl
            · exact absurd hq hcm
          simp [mainRun, hm', hp', hcm', noEffects]

/-- Claim C6: at the commit confirmation prompt the commit operation is
invoked if and only if the input lowercases to exactly "y" — that is,
only for the inputs "y" and "Y"; any other input yields no commit
invocation and a clean return (exit code 0). -/
theorem commit_confirmation_gate (a : Args) (env : Env)
    (m : Option (List Char))
    (hc : a.commit = true) (hp : a.preview = false) (hm : truthy m = true) :
    ((mainRun (Gen.completed m) a env).commitInvoked = true ↔
      (env.confirmInput = ['y'] ∨ env.confirmInput = ['Y'])) ∧
    (¬ (env.confirmInput = ['y'] ∨ env.confirmInput = ['Y']) →
      (mainRun (Gen.completed m) a env).commitInvoked = false ∧
      (mainRun (Gen.completed m) a env).exitCode = 0) := by
  simp only [mainRun]
  rw [if_neg (by rw [hm]; simp), if_neg (by simp [hp]), if_pos hc]
  by_cases hy : pyLower env.confirmInput = ['y']
  · rw [if_pos hy]
    constructor
    · exact ⟨fun _ => (pyLower_eq_y_iff env.confirmInput).mp hy, fun _ => rfl⟩
    · intro hno
      exact absurd ((pyLower_eq_y_iff env.confirmInput).mp hy) hno
  · rw [if_neg hy]
    constructor
    · constructor
      · intro hfalse
        exact absurd hfalse Bool.false_ne_true
      · intro hyY
        exact absurd ((pyLower_eq_y_iff env.confirmInput).mpr hyY) hy
    · intro _
      exact ⟨rfl, rfl⟩

/-- Witness for C6: input "n" declines; no commit, clean exit. -/
theorem commit_confirmation_gate_witness :
    (mainRun (Gen.completed (some ['x'])) ⟨true, false, false⟩
        ⟨OSKind.otherOS, false, ['n'], false⟩).commitInvoked = false ∧
    (mainRun (Gen.completed (some ['x'])) ⟨true, false, false⟩
        ⟨OSKind.otherOS, false, ['n'], false⟩).exitCode = 0 :=
  (commit_confirmation_gate ⟨true, false, false⟩
      ⟨OSKind.otherOS, false, ['n'], false⟩ (some ['x'])
      rfl rfl (by decide)).2 (by decide)

/-- Claim C7: when the preview flag is set (and a message was produced),
dispatch prints the message and performs no other action: no clipboard
attempt, no commit prompt or invocation, no suggested command, exit 0 —
regardless of the copy and commit flags. -/
theorem preview_only_prints (a : Args) (env : Env) (m : Option (List Char))
    (hp : a.preview = true) (hm : truthy m = true) :
    mainRun (Gen.completed m) a env =
      { noEffects with printedMessage := true, previewNote := true } := by
  simp only [mainRun]
  rw [if_neg (by rw [hm]; simp), if_pos hp]

/-- Witness for C7: preview together with both copy and commit flags. -/
theorem preview_only_prints_witness :
    mainRun (Gen.completed (some ['x'])) ⟨true, true, true⟩
        ⟨OSKind.darwin, true, ['y'], true⟩ =
      { noEffects with printedMessage := true, previewNote := true } :=
  preview_only_prints ⟨true, true, true⟩ ⟨OSKind.darwin, true, ['y'], true⟩
    (some ['x']) rfl (by decide)

/-- Claim C8: when neither commit nor preview is requested, the suggested
shell command embeds the message with every single quote replaced by
an escaped quote sequence; a message containing "it's" yields exactly the
escaped form inside the command. -/
theorem suggested_command_escapes (a : Args) (env : Env)
    (pre suf : List Char)
    (hc : a.commit = false) (hp : a.preview = false) :
    (mainRun
        (Gen.completed (some (pre ++ ('i' :: 't' :: apos :: 's' :: []) ++ suf)))
        a env).suggestion =
      some ("   git commit -m ".data ++ [apos] ++ escapeSQ pre ++
        ('i' :: 't' :: apos :: '\\' :: apos :: apos :: 's' :: []) ++
        escapeSQ suf ++ [apos]) := by
  have hm : truthy (some (pre ++ ('i' :: 't' :: apos :: 's' :: []) ++ suf)) =
      true := by
    simp [truthy]
  simp only [mainRun]
  rw [if_neg (by rw [hm]; simp), if_neg (by simp [hp]), if_neg (by simp [hc])]
  have hstep : ∀ r : List Char, escapeSQ ('i' :: 't' :: apos :: 's' :: r) =
      'i' :: 't' :: apos :: '\\' :: apos :: apos :: 's' :: escapeSQ r := by
    intro r
    rw [escapeSQ_cons, if_neg (by decide), escapeSQ_cons, if_neg (by decide),
      escapeSQ_cons, if_pos rfl, escapeSQ_cons, if_neg (by decide)]
  show some (suggestedLine _) = _
  simp [suggestedLine, escapeSQ_append, hstep, List.append_assoc]

/-- Witness for C8 at the message "it's". -/
theorem suggested_command_escapes_witness :
    (mainRun (Gen.completed (some ('i' :: 't' :: apos :: 's' :: [])))
        ⟨false, false, false⟩ ⟨OSKind.otherOS, false, [], false⟩).suggestion =
      some ("   git commit -m ".data ++ [apos] ++ escapeSQ [] ++
        ('i' :: 't' :: apos :: '\\' :: apos :: apos :: 's' :: []) ++
        escapeSQ [] ++ [apos]) :=
  suggested_command_escapes ⟨false, false, false⟩
    ⟨OSKind.otherOS, false, [], false⟩ [] [] rfl rfl

/-- Claim C9: markdown-fence cleanup is idempotent. -/
theorem cleanup_idempotent (s : List Char) :
    cleanup (cleanup s) = cleanup s :=
  cleanup_cleanup s

/-- Claim C10: every non-absent, non-empty message the pipeline produces
satisfies the post-cleanup invariant (non-empty, globally trimmed, no
blank line, no fence-opening line, no trailing whitespace on any line);
and a message that is absent or empty is never acted on — `main` takes the
failure path instead. -/
theorem acted_message_invariant :
    (∀ (se : SessionEnd) (s : List Char),
        generateCommitMessage se = some s → s ≠ [] → cleanInvariant s) ∧
    ∀ (a : Args) (env : Env) (m : Option (List Char)), truthy m = false →
        mainRun (Gen.completed m) a env = { noEffects with exitCode := 1 } := by
  constructor
  · intro se s h hne
    cases se with
    | cliNotFound => exact absurd h (by simp [generateCommitMessage])
    | processError => exact absurd h (by simp [generateCommitMessage])
    | unexpectedError => exact absurd h (by simp [generateCommitMessage])
    | finished evs =>
      exact runLoop_sound evs [] none (fun s' hs' _ => absurd hs' (by simp))
        s h hne
  · intro a env m hm
    simp only [mainRun]
    rw [if_pos (by rw [hm]; rfl)]

/-- Witness for C10: a finished session producing the message "x", which
satisfies the invariant. -/
theorem acted_message_invariant_witness :
    generateCommitMessage
        (SessionEnd.finished [AgentEvent.text ['x'], AgentEvent.result false]) =
      some ['x'] ∧
    cleanInvariant ['x'] := by
  refine ⟨by decide, ?_⟩
  exact acted_message_invariant.1
    (SessionEnd.finished [AgentEvent.text ['x'], AgentEvent.result false])
    ['x'] (by decide) (by decide)

end ClaudeCommit
